import Mathlib

set_option linter.unusedVariables false

/-!
Verification of core algorithms of the XQuery2 blockchain indexer.

This file gives a shallow embedding, in Lean 4, of the pure computational
kernels of the indexer and proves (or refutes) the specified properties:

* fixed-point decimal quantization (util/decimal.py);
* the interval splitting helper (util/misc.py, split_interval);
* the weighted-average bundle price (event/processor_exchange_bundle.py);
* the initial-price / synthetic bundle logic (event/processor_exchange_bundle.py);
* the Retry-After header parser (middleware.py);
* the in-memory cache (cache/memory.py);
* the Mint/Burn/Transfer correlation of the exchange event indexer
  (event/indexer_exchange.py);
* the scan retry loop of the controller (controller.py, Controller.scan);
* the commit coordinator reorder loop (controller.py, Controller._handle_db).

External effects (database sessions, RPC calls, wall-clock time) are abstracted
into explicit oracles / data parameters; all arithmetic on token amounts is
modelled over the exact rationals with an explicit half-up quantization step,
mirroring the python Decimal usage (78-digit context, quantize to 18 places).
-/

namespace XQuery

/-! ## Decimal arithmetic (xquery/util/decimal.py)

Python uses `decimal.Decimal` with half-up rounding.  We model token
amounts as exact rationals; `quantize18` is the embedding of
`v.quantize(Decimal("0.000000000000000018 zeros"), rounding=ROUND_HALF_UP)`. -/

/-- Floor of a rational as an integer (the rational denominator is positive,
so Euclidean division of the numerator by the denominator is the floor). -/
def floorQ (q : ℚ) : ℤ := q.num.ediv q.den

/-- Round a rational to the nearest integer, ties away from zero
(python `ROUND_HALF_UP`). -/
def roundHalfUp (q : ℚ) : ℤ :=
  if 0 ≤ q then floorQ (q + 1 / 2) else -(floorQ (-q + 1 / 2))

/-- Quantize a rational to 18 fractional digits, rounding half-up; embeds
`v.quantize(Decimal(f"0.{18 * '0'}"), rounding=ROUND_HALF_UP)`. -/
def quantize18 (q : ℚ) : ℚ :=
  ((roundHalfUp (q * 10 ^ 18) : ℚ)) / 10 ^ 18

/-- Embeds `token_to_decimal(value, exp)` from util/decimal.py:
`Decimal(value) / Decimal("10") ** Decimal(exp)` followed by quantization
to 18 fractional digits. -/
def token_to_decimal (value : ℕ) (exp : ℕ) : ℚ :=
  quantize18 ((value : ℚ) / 10 ^ exp)

/-! ## Interval splitting (xquery/util/misc.py, split_interval) -/

/-- Embeds python `sorted(set(values))`: the strictly ascending enumeration of
the distinct elements of the list. -/
def sortedValues (values : List ℤ) : List ℤ :=
  values.dedup.insertionSort (· ≤ ·)

/-- The body of the `for p in sorted(set(values))` loop of `split_interval`,
together with the trailing `if c <= b: intervals.append((c, b))`.
`c` is the running left end of the next interval. -/
def split_go (a b : ℤ) : ℤ → List ℤ → List (ℤ × ℤ)
  | c, [] => if c ≤ b then [(c, b)] else []
  | c, p :: ps =>
    if p < a then split_go a b c ps
    else if b < p then (if c ≤ b then [(c, b)] else [])
    else if p < b then (c, p) :: split_go a b (p + 1) ps
    else split_go a b c ps

/-- Embeds `split_interval(a, b, values)` from util/misc.py. -/
def split_interval (a b : ℤ) (values : List ℤ) : List (ℤ × ℤ) :=
  split_go a b a (sortedValues values)

/-! ## Weighted average price (xquery/event/processor_exchange_bundle.py) -/

/-- Current price and weight of a tracked pair
(dataclass PriceInfo of processor_exchange_bundle.py). -/
structure PriceInfo where
  price : ℚ
  weight : ℚ
deriving Repr, DecidableEq

/-- Embeds `EventProcessorStageExchange_Bundle.calc_price(a, b, order)`:
if `order` then price `b / a` with weight `a`, else price `a / b` with
weight `b`; the price is quantized to 18 places. -/
def calc_price (a b : ℚ) (order : Bool) : PriceInfo :=
  if order then ⟨quantize18 (b / a), a⟩ else ⟨quantize18 (a / b), b⟩

/-- Embeds `EventProcessorStageExchange_Bundle.calc_weighted_average`:
sum `price * weight` and total weight over the tracked pairs (in insertion
order of the dict), return the quantized quotient, or quantized 0 when the
total weight is zero. -/
def calc_weighted_average (price_infos : List PriceInfo) : ℚ :=
  let total_value := (price_infos.map (fun info => info.price * info.weight)).sum
  let total_weight := (price_infos.map (fun info => info.weight)).sum
  let result := if total_weight = 0 then 0 else total_value / total_weight
  quantize18 result

/-! ## Retry-After parsing (xquery/middleware.py, _parse_retry_after) -/

/-- Outcome of python parsing of a Retry-After header value, abstracting
`int(value)` and `email.utils.parsedate` + `time.mktime`:
either the value parses as an integer, or as an HTTP-date with the given
epoch timestamp, or it parses as neither. -/
inductive RetryAfterValue where
  | intVal (n : ℤ)
  | dateVal (epoch : ℤ)
  | invalid
deriving Repr, DecidableEq

/-- Embeds `_parse_retry_after(value)` from middleware.py, with the current
wall clock abstracted as `now`:
`max(0, int(value))` when the value is an integer; else
`max(0, int(time.time() - time.mktime(parsedate(value))))` when it is an
HTTP-date; else 0. -/
def parse_retry_after (now : ℤ) : RetryAfterValue → ℤ
  | .intVal n => max 0 n
  | .dateVal epoch => max 0 (now - epoch)
  | .invalid => 0

/-! ## In-memory cache (xquery/cache/memory.py, Cache_Memory) -/

/-- State of `Cache_Memory`: the python dict `self._cache`, modelled as a
function from keys to optional values. -/
structure CacheMemory (K V : Type) where
  cache : K → Option V

/-- Embeds `Cache_Memory.set(name, value, ttl)`; note the source ignores
the `ttl` argument entirely. -/
def CacheMemory.set {K V : Type} [DecidableEq K]
    (c : CacheMemory K V) (name : K) (value : V) (ttl : Option ℕ) : CacheMemory K V :=
  ⟨fun k => if k = name then some value else c.cache k⟩

/-- Embeds `Cache_Memory.get(name)`: the dict lookup, `None` (here `none`)
when the key is absent (the python `KeyError` is caught). -/
def CacheMemory.get {K V : Type} (c : CacheMemory K V) (name : K) : Option V :=
  c.cache name

/-- Embeds `Cache_Memory.remove(name)`: delete the key; a `KeyError` on an
absent key is swallowed. -/
def CacheMemory.remove {K V : Type} [DecidableEq K]
    (c : CacheMemory K V) (name : K) : CacheMemory K V :=
  ⟨fun k => if k = name then none else c.cache k⟩

/-! ## Auxiliary form of the split loop

For reasoning we relate `split_go` to a loop `split_core` over the values
already restricted to `[a, b-1]`; with a strictly sorted input both skip
branches and the break branch of `split_go` coincide with this restriction. -/

/-- The split loop specialized to a list of split points that all lie in
`[a, b-1]` (no skip or break branches fire). -/
def split_core (b : ℤ) : ℤ → List ℤ → List (ℤ × ℤ)
  | c, [] => if c ≤ b then [(c, b)] else []
  | c, p :: ps => (c, p) :: split_core b (p + 1) ps

/-- Predicate selecting the split points that actually produce a boundary:
those inside `[a, b-1]`. -/
def inSplitRange (a b p : ℤ) : Bool := decide (a ≤ p) && decide (p < b)

theorem split_go_eq_core (a b : ℤ) :
    ∀ (S : List ℤ) (c : ℤ), S.Pairwise (· < ·) →
      split_go a b c S = split_core b c (S.filter (inSplitRange a b)) := by
  intro S
  induction S with
  | nil => intro c _; simp [split_go, split_core]
  | cons p ps ih =>
    intro c hpw
    have hpw' : ps.Pairwise (· < ·) := hpw.of_cons
    by_cases h1 : p < a
    · have hf : inSplitRange a b p = false := by simp [inSplitRange]; omega
      simp only [split_go, if_pos h1, List.filter_cons, hf]
      simpa using ih c hpw'
    · by_cases h2 : b < p
      · have hrest : ps.filter (inSplitRange a b) = [] := by
          rw [List.filter_eq_nil_iff]
          intro q hq
          have := (List.pairwise_cons.mp hpw).1 q hq
          simp [inSplitRange]
          omega
        have hf : inSplitRange a b p = false := by simp [inSplitRange]; omega
        simp only [split_go, if_neg h1, if_pos h2, List.filter_cons, hf]
        simp [hrest, split_core]
      · by_cases h3 : p < b
        · have hf : inSplitRange a b p = true := by simp [inSplitRange]; omega
          simp only [split_go, if_neg h1, if_neg h2, if_pos h3, List.filter_cons, hf]
          rw [ih (p + 1) hpw']
          simp [split_core]
        · have hf : inSplitRange a b p = false := by simp [inSplitRange]; omega
          simp only [split_go, if_neg h1, if_neg h2, if_neg h3, List.filter_cons, hf]
          simpa using ih c hpw'

theorem split_core_spec (b : ℤ) :
    ∀ (S : List ℤ) (c : ℤ), c ≤ b → (∀ p ∈ S, c ≤ p ∧ p < b) → S.Pairwise (· < ·) →
      split_core b c S ≠ [] ∧
      ((split_core b c S).map Prod.fst).head? = some c ∧
      (split_core b c S).map Prod.snd = S ++ [b] ∧
      (∀ pr ∈ split_core b c S, pr.1 ≤ pr.2) ∧
      (split_core b c S).Chain' (fun x y => y.1 = x.2 + 1) := by
  intro S
  induction S with
  | nil =>
    intro c hc _ _
    simp [split_core, hc]
  | cons p ps ih =>
    intro c hc hmem hpw
    have hp : c ≤ p ∧ p < b := hmem p (by simp)
    have hmem' : ∀ q ∈ ps, p + 1 ≤ q ∧ q < b := by
      intro q hq
      have h1 := (List.pairwise_cons.mp hpw).1 q hq
      have h2 := hmem q (by simp [hq])
      omega
    obtain ⟨hne, hhead, hsnd, hbnd, hchain⟩ := ih (p + 1) (by omega) hmem' hpw.of_cons
    refine ⟨by simp [split_core], by simp [split_core], ?_, ?_, ?_⟩
    · simp only [split_core, List.map_cons, hsnd]
      simp
    · intro pr hpr
      rcases List.mem_cons.mp hpr with h | h
      · subst h; exact hp.1
      · exact hbnd pr h
    · rw [split_core, List.chain'_cons']
      refine ⟨?_, hchain⟩
      intro y hy
      rw [List.head?_map] at hhead
      rw [Option.mem_def] at hy
      rw [hy] at hhead
      simpa using hhead

theorem sortedValues_pairwise (values : List ℤ) : (sortedValues values).Pairwise (· < ·) := by
  have hsorted : (sortedValues values).Sorted (· ≤ ·) := List.sorted_insertionSort _ _
  have hnodup : (sortedValues values).Nodup :=
    ((List.perm_insertionSort (· ≤ ·) values.dedup).nodup_iff).mpr (List.nodup_dedup values)
  exact hsorted.lt_of_le hnodup

theorem mem_sortedValues (values : List ℤ) (p : ℤ) :
    p ∈ sortedValues values ↔ p ∈ values := by
  rw [sortedValues, (List.perm_insertionSort (· ≤ ·) values.dedup).mem_iff]
  exact List.mem_dedup

/-- C8: for all integers `a ≤ b` and every list of split values `V`,
`split_interval a b V` returns a partition of `[a, b]` into consecutive
sub-intervals (first left end `a`, last right end `b`, each next left end is
the previous right end plus one, and each sub-interval is nonempty), whose
right endpoints other than `b` are exactly the elements of `V ∩ [a, b-1]`;
in particular `split_interval 1 8 [4,7] = [(1,4),(5,7),(8,8)]` and
`split_interval 1 8 [0,9] = [(1,8)]`. -/
theorem claim_C8_split_interval (a b : ℤ) (values : List ℤ) (h : a ≤ b) :
    split_interval a b values ≠ [] ∧
    ((split_interval a b values).map Prod.fst).head? = some a ∧
    ((split_interval a b values).map Prod.snd).getLast? = some b ∧
    (∀ pr ∈ split_interval a b values, pr.1 ≤ pr.2) ∧
    (split_interval a b values).Chain' (fun x y => y.1 = x.2 + 1) ∧
    (∀ p : ℤ, p ∈ ((split_interval a b values).map Prod.snd).dropLast ↔
      (p ∈ values ∧ a ≤ p ∧ p ≤ b - 1)) ∧
    split_interval 1 8 [4, 7] = [(1, 4), (5, 7), (8, 8)] ∧
    split_interval 1 8 [0, 9] = [(1, 8)] := by
  have hpw := sortedValues_pairwise values
  have heq := split_go_eq_core a b (sortedValues values) a hpw
  have hSmem : ∀ p ∈ (sortedValues values).filter (inSplitRange a b), a ≤ p ∧ p < b := by
    intro p hp
    have := List.of_mem_filter hp
    simp [inSplitRange] at this
    exact this
  have hSpw : ((sortedValues values).filter (inSplitRange a b)).Pairwise (· < ·) :=
    hpw.filter _
  obtain ⟨h1, h2, h3, h4, h5⟩ := split_core_spec b _ a h hSmem hSpw
  rw [split_interval, heq]
  refine ⟨h1, h2, ?_, h4, h5, ?_, by decide, by decide⟩
  · rw [h3, List.getLast?_concat]
  · intro p
    rw [h3, List.dropLast_concat, List.mem_filter, mem_sortedValues]
    simp only [inSplitRange, Bool.and_eq_true, decide_eq_true_eq]
    constructor
    · rintro ⟨h1, h2, h3⟩
      exact ⟨h1, h2, by omega⟩
    · rintro ⟨h1, h2, h3⟩
      exact ⟨h1, h2, by omega⟩

/-- Witness for C8 at `a = 1`, `b = 8`, `values = [4, 7]`. -/
theorem claim_C8_split_interval_witness :
    split_interval 1 8 [4, 7] ≠ [] ∧
    ((split_interval 1 8 [4, 7]).map Prod.fst).head? = some 1 ∧
    ((split_interval 1 8 [4, 7]).map Prod.snd).getLast? = some 8 ∧
    (∀ pr ∈ split_interval 1 8 [4, 7], pr.1 ≤ pr.2) ∧
    (split_interval 1 8 [4, 7]).Chain' (fun x y => y.1 = x.2 + 1) ∧
    (∀ p : ℤ, p ∈ ((split_interval 1 8 [4, 7]).map Prod.snd).dropLast ↔
      (p ∈ [(4 : ℤ), 7] ∧ 1 ≤ p ∧ p ≤ 8 - 1)) ∧
    split_interval 1 8 [4, 7] = [(1, 4), (5, 7), (8, 8)] ∧
    split_interval 1 8 [0, 9] = [(1, 8)] :=
  claim_C8_split_interval 1 8 [4, 7] (by decide)

/-- C7: `calc_weighted_average` returns `Σ(price·weight)/Σ(weight)` quantized
to 18 fractional digits with half-up rounding, and returns 0 when the total
weight is zero; in particular the inputs `(1,5), (2,2), (3,1)` give exactly
`3/2`. -/
theorem claim_C7_calc_weighted_average (infos : List PriceInfo) :
    calc_weighted_average infos =
      (if (infos.map (fun i => i.weight)).sum = 0 then 0
       else quantize18 ((infos.map (fun i => i.price * i.weight)).sum /
         (infos.map (fun i => i.weight)).sum)) ∧
    calc_weighted_average [⟨1, 5⟩, ⟨2, 2⟩, ⟨3, 1⟩] = 3 / 2 := by
  constructor
  · rw [calc_weighted_average]
    by_cases h : (infos.map (fun i => i.weight)).sum = 0
    · simp only [h, if_pos, ite_true]
      with_unfolding_all decide
    · simp [h]
  · with_unfolding_all decide

/-- C9: `_parse_retry_after` returns the integer itself for a non-negative
integer input (e.g. 68 for "68"), returns 0 for a negative integer and for an
unparsable string, and for an HTTP-date string returns
`max 0 (now - parsed epoch)` (e.g. `max 0 (now - 1445405280)` for
"Wed, 21 Oct 2015 07:28:00 GMT"). -/
theorem claim_C9_parse_retry_after (now n m t : ℤ) (hn : 0 ≤ n) (hm : m < 0) :
    parse_retry_after now (.intVal n) = n ∧
    parse_retry_after now (.intVal 68) = 68 ∧
    parse_retry_after now (.intVal m) = 0 ∧
    parse_retry_after now .invalid = 0 ∧
    parse_retry_after now (.dateVal t) = max 0 (now - t) ∧
    parse_retry_after now (.dateVal 1445405280) = max 0 (now - 1445405280) := by
  refine ⟨?_, ?_, ?_, rfl, rfl, rfl⟩
  · simp [parse_retry_after, max_eq_right hn]
  · simp [parse_retry_after]
  · simp [parse_retry_after]
    omega

/-- Witness for C9 at `now = 1700000000`, `n = 68`, `m = -68`,
`t = 1445405280`. -/
theorem claim_C9_parse_retry_after_witness :
    parse_retry_after 1700000000 (.intVal 68) = 68 ∧
    parse_retry_after 1700000000 (.intVal 68) = 68 ∧
    parse_retry_after 1700000000 (.intVal (-68)) = 0 ∧
    parse_retry_after 1700000000 .invalid = 0 ∧
    parse_retry_after 1700000000 (.dateVal 1445405280) = max 0 (1700000000 - 1445405280) ∧
    parse_retry_after 1700000000 (.dateVal 1445405280) = max 0 (1700000000 - 1445405280) :=
  claim_C9_parse_retry_after 1700000000 68 (-68) 1445405280 (by decide) (by decide)

/-- C10: for the in-memory cache, `get` on an absent key returns the absent
sentinel `none` (the model is total, so no exception can be raised), `remove`
on an absent key is a no-op (observationally, every later `get` is
unchanged), and `get k` after `set k v ttl` returns `v` for any `ttl`; the
`ttl` argument has no effect at all (`set` with different ttls yields the
same cache). -/
theorem claim_C10_cache_memory {K V : Type} [DecidableEq K] (c : CacheMemory K V)
    (k j : K) (v : V) (ttl ttl2 : Option ℕ) (habs : c.get k = none) :
    c.get k = none ∧
    (c.set k v ttl).get k = some v ∧
    c.set k v ttl = c.set k v ttl2 ∧
    (c.remove k).get j = c.get j := by
  refine ⟨habs, ?_, rfl, ?_⟩
  · simp [CacheMemory.get, CacheMemory.set]
  · by_cases hj : j = k
    · subst hj
      simp [CacheMemory.get, CacheMemory.remove, habs.symm]
    · simp [CacheMemory.get, CacheMemory.remove, hj]

/-- Witness for C10 on the empty `ℕ → ℕ` cache with `k = j = 0`, `v = 7`,
`ttl = some 3` and `ttl2 = none`. -/
theorem claim_C10_cache_memory_witness :
    (⟨fun _ => none⟩ : CacheMemory ℕ ℕ).get 0 = none ∧
    ((⟨fun _ => none⟩ : CacheMemory ℕ ℕ).set 0 7 (some 3)).get 0 = some 7 ∧
    (⟨fun _ => none⟩ : CacheMemory ℕ ℕ).set 0 7 (some 3) =
      (⟨fun _ => none⟩ : CacheMemory ℕ ℕ).set 0 7 none ∧
    ((⟨fun _ => none⟩ : CacheMemory ℕ ℕ).remove 0).get 0 =
      (⟨fun _ => none⟩ : CacheMemory ℕ ℕ).get 0 :=
  claim_C10_cache_memory ⟨fun _ => none⟩ 0 0 7 (some 3) none rfl

/-! ## The scan retry loop (xquery/controller.py, Controller.scan)

The `eth_getLogs` throttle handling inside `Controller.scan`:
```
retries = 5
delay = 3.0
for i in range(retries):
    try:
        logs = filter_.get_logs(from_block=current_block, chunk_size=current_chunk_size)
    except (HTTPError, Timeout):
        if i < retries - 1:
            current_chunk_size = max(1, current_chunk_size // 2)
            time.sleep(delay)
        else:
            raise
```
The outcome of the i-th `get_logs` call is abstracted as an oracle
`fail : ℕ → Bool` (`true` = the call raises `HTTPError`/`Timeout`). -/

/-- Trace of the retry loop: chunk size passed to each `get_logs` call in
order, whether the loop re-raised, and the final chunk size. -/
structure RetryTrace where
  calls : List ℕ
  raised : Bool
  chunk : ℕ
deriving Repr, DecidableEq

/-- Embeds the `for i in range(retries)` loop body of `Controller.scan`
(including the absence of any break after a successful call); the first
argument list is the remaining iteration indices. -/
def scan_retry_go (fail : ℕ → Bool) (retries : ℕ) : List ℕ → ℕ → List ℕ → RetryTrace
  | [], chunk, acc => ⟨acc, false, chunk⟩
  | i :: rest, chunk, acc =>
    if fail i then
      if i < retries - 1 then
        scan_retry_go fail retries rest (max 1 (chunk / 2)) (acc ++ [chunk])
      else
        ⟨acc ++ [chunk], true, chunk⟩
    else
      scan_retry_go fail retries rest chunk (acc ++ [chunk])

/-- The retry loop of `Controller.scan` with its constants
(`retries = 5`, iterating `for i in range(retries)`). -/
def scan_retry (fail : ℕ → Bool) (chunk : ℕ) : RetryTrace :=
  scan_retry_go fail 5 (List.range 5) chunk []

/-- C2 (claim refuted; the code contradicts the documented intent): even when
every `filter.get_logs` call succeeds, `Controller.scan` still calls
`get_logs` five times for the chunk (the loop has no break on success), not
once as claimed.  Furthermore, a failure on a redundant call after an initial
success still halves the chunk (oracle failing only attempt 1), and only with
failures on all five attempts does the loop halve down and re-raise. -/
theorem claim_C2_scan_retry (chunk : ℕ) :
    (scan_retry (fun _ => false) chunk).calls = [chunk, chunk, chunk, chunk, chunk] ∧
    (scan_retry (fun _ => false) chunk).raised = false ∧
    (scan_retry (fun i => decide (i = 1)) 8).calls = [8, 8, 4, 4, 4] ∧
    (scan_retry (fun _ => true) 8).calls = [8, 4, 2, 1, 1] ∧
    (scan_retry (fun _ => true) 8).raised = true := by
  refine ⟨?_, ?_, by decide, by decide, by decide⟩ <;>
    simp [scan_retry, scan_retry_go]

/-! ## Exchange event indexer (xquery/event/indexer_exchange.py)

Addresses and transaction hashes are modelled as natural numbers (the python
checksum normalization `Web3.toChecksumAddress` is a bijective reformatting
and becomes the identity).  The database/RPC materialization of users,
transactions, pairs and tokens is abstracted into oracles:
`txOf` stands for `self._get_tx`, `pairTok` for
`self._load_pair(...).token0_address / token1_address` and `decimalsOf`
for `self._get_token(...).decimals`.  The per-transaction caches
`self._mints` / `self._burns` (python dicts keyed by tx hash) are modelled
as functions to optional lists. -/

/-- Address, modelled as a natural number. -/
abbrev Addr := ℕ

/-- The zero address constant of `_handle_transfer`. -/
def ADDRESS_ZERO : Addr := 0

/-- The `MINIMUM_LIQUIDITY` constant of `_handle_transfer` (raw token units). -/
def MINIMUM_LIQUIDITY : ℕ := 1000

/-- Result of `self._get_tx`: the fields of an `orm.Transaction` used by the
transfer/mint/burn handlers. -/
structure TxInfo where
  hash : ℕ
  id : ℕ
  timestamp : ℕ
  from_ : Addr
deriving Repr, DecidableEq

/-- Decoded `Transfer` log entry (pair contract): `entry.address` is the pair
contract, `dataDecoded` gives `from`, `to` and the raw `value`. -/
structure TransferEntry where
  address : Addr
  txHash : ℕ
  logIndex : ℕ
  from_ : Addr
  to_ : Addr
  value : ℕ
deriving Repr, DecidableEq

/-- Decoded `Mint` log entry (pair contract). -/
structure MintEntry where
  address : Addr
  txHash : ℕ
  logIndex : ℕ
  sender : Addr
  amount0 : ℕ
  amount1 : ℕ
deriving Repr, DecidableEq

/-- Decoded `Burn` log entry (pair contract). -/
structure BurnEntry where
  address : Addr
  txHash : ℕ
  logIndex : ℕ
  sender : Addr
  amount0 : ℕ
  amount1 : ℕ
  to_ : Addr
deriving Repr, DecidableEq

/-- Fields of an `orm.Mint` row as constructed by the indexer. -/
structure MintRow where
  transaction_id : ℕ
  pair_address : Addr
  timestamp : ℕ
  liquidity : ℚ
  sender : Option Addr
  amount0 : ℚ
  amount1 : ℚ
  to_ : Addr
  logIndex : Option ℕ
  amountUSD : ℚ
  feeTo : Option Addr
  feeLiquidity : Option ℚ
deriving Repr, DecidableEq

/-- Fields of an `orm.Burn` row as constructed by the indexer. -/
structure BurnRow where
  transaction_id : ℕ
  pair_address : Addr
  timestamp : ℕ
  liquidity : ℚ
  sender : Option Addr
  amount0 : ℚ
  amount1 : ℚ
  to_ : Option Addr
  logIndex : Option ℕ
  amountUSD : ℚ
  needsComplete : Bool
  feeTo : Option Addr
  feeLiquidity : Option ℚ
deriving Repr, DecidableEq

/-- Fields of an `orm.Transfer` row as constructed by `_handle_transfer`. -/
structure TransferRow where
  transaction_id : ℕ
  pair_address : Addr
  from_ : Addr
  to_ : Addr
  value : ℚ
  logIndex : ℕ
deriving Repr, DecidableEq

/-- Embeds `is_complete(mint)` of indexer_exchange.py:
`mint.sender is not None`. -/
def is_complete (mint : MintRow) : Bool := mint.sender.isSome

/-- The per-transaction caches `self._mints` and `self._burns` of
`EventIndexerExchange`, keyed by tx hash. -/
structure IndexerState where
  mints : ℕ → Option (List MintRow)
  burns : ℕ → Option (List BurnRow)

/-- Fresh caches (after `reset()`). -/
def IndexerState.empty : IndexerState := ⟨fun _ => none, fun _ => none⟩

/-- Point update of a python-dict-as-function. -/
def updateMap {α : Type} (m : ℕ → Option α) (k : ℕ) (v : α) : ℕ → Option α :=
  fun k2 => if k2 = k then some v else m k2

/-- Embeds `EventIndexerExchange._handle_transfer(entry)`.  Returns the
updated caches together with the list of emitted `orm.Transfer` rows
(mint/burn rows are kept in the caches and only emitted later by the
mint/burn handlers).  The user creation (`_get_user`) has no effect on the
returned objects and is omitted. -/
def handle_transfer (txOf : ℕ → TxInfo) (entry : TransferEntry) (st : IndexerState) :
    IndexerState × List TransferRow :=
  let pair_address := entry.address
  -- ignore initial transfers for first adds
  if entry.to_ = ADDRESS_ZERO ∧ entry.value = MINIMUM_LIQUIDITY then (st, [])
  else
    let tx := txOf entry.txHash
    -- keep cache per tx
    let mints0 := (st.mints tx.hash).getD []
    let burns0 := (st.burns tx.hash).getD []
    -- liquidity token amount being transferred
    let value := token_to_decimal entry.value 18
    -- mints
    let mints1 :=
      if entry.from_ = ADDRESS_ZERO then
        match mints0.getLast? with
        | some m =>
          if is_complete m then
            mints0 ++ [⟨tx.id, pair_address, tx.timestamp, value, none, 0, 0,
              entry.to_, none, 0, none, none⟩]
          else
            -- if this logical mint included a fee mint, account for it
            mints0.dropLast ++ [{ m with
              feeTo := some m.to_,
              to_ := entry.to_,
              feeLiquidity := some m.liquidity,
              liquidity := value }]
        | none =>
          mints0 ++ [⟨tx.id, pair_address, tx.timestamp, value, none, 0, 0,
            entry.to_, none, 0, none, none⟩]
      else mints0
    -- burns: case where direct send first on native asset withdrawals
    let burns1 :=
      if entry.to_ = pair_address then
        burns0 ++ [⟨tx.id, pair_address, tx.timestamp, value, some entry.from_, 0, 0,
          some entry.to_, none, 0, true, none, none⟩]
      else burns0
    -- burn completion (from = pair and to = zero address)
    let step2 :=
      if entry.from_ = pair_address ∧ entry.to_ = ADDRESS_ZERO then
        let burn0 :=
          match burns1.getLast? with
          | some current_burn =>
            if current_burn.needsComplete then current_burn
            else (⟨tx.id, pair_address, tx.timestamp, value, none, 0, 0,
              none, none, 0, false, none, none⟩ : BurnRow)
          | none =>
            (⟨tx.id, pair_address, tx.timestamp, value, none, 0, 0,
              none, none, 0, false, none, none⟩ : BurnRow)
        -- if this logical burn included a fee mint, account for this
        let feeStep :=
          match mints1.getLast? with
          | some m =>
            if is_complete m then (burn0, mints1)
            else ({ burn0 with
              feeTo := some m.to_,
              feeLiquidity := some m.liquidity }, mints1.dropLast)
          | none => (burn0, mints1)
        -- if accessing last one, update it, else add new one
        let burns2 :=
          if feeStep.1.needsComplete then
            burns1.dropLast ++ [{ feeStep.1 with needsComplete := false }]
          else burns1 ++ [feeStep.1]
        (feeStep.2, burns2)
      else (mints1, burns1)
    let st2 : IndexerState :=
      ⟨updateMap st.mints tx.hash step2.1, updateMap st.burns tx.hash step2.2⟩
    -- emit an orm Transfer row
    let objects :=
      if entry.from_ ∉ ([ADDRESS_ZERO, pair_address] : List Addr) ∨
         entry.to_ ∉ ([ADDRESS_ZERO, pair_address] : List Addr) then
        [(⟨tx.id, pair_address, entry.from_, entry.to_, value, entry.logIndex⟩ : TransferRow)]
      else []
    (st2, objects)

/-- Embeds `EventIndexerExchange._handle_mint(entry)`: pop the last in-flight
mint of the tx and fill `sender`, `amount0`, `amount1`, `logIndex` (amounts
scaled by the pair tokens' decimals).  The python asserts
(`tx.hash in self._mints`, `len(mints) > 0`) are modelled as `none`. -/
def handle_mint (txOf : ℕ → TxInfo) (pairTok : Addr → Addr × Addr)
    (decimalsOf : Addr → ℕ) (entry : MintEntry) (st : IndexerState) :
    Option (IndexerState × List MintRow) :=
  let tx := txOf entry.txHash
  let toks := pairTok entry.address
  let token0_amount := token_to_decimal entry.amount0 (decimalsOf toks.1)
  let token1_amount := token_to_decimal entry.amount1 (decimalsOf toks.2)
  match st.mints tx.hash with
  | none => none
  | some mints =>
    match mints.getLast? with
    | none => none
    | some mint =>
      let mint2 := { mint with
        sender := some entry.sender,
        amount0 := token0_amount,
        amount1 := token1_amount,
        logIndex := some entry.logIndex,
        amountUSD := 0 }
      some (⟨updateMap st.mints tx.hash (mints.dropLast ++ [mint2]), st.burns⟩, [mint2])

/-- Embeds `EventIndexerExchange._handle_burn(entry)`: complete the last
in-flight burn of the tx with `amount0`, `amount1`, `logIndex` (note the
source does not copy `sender` or `to` from the decoded `Burn` args).  The
python asserts are modelled as `none`. -/
def handle_burn (txOf : ℕ → TxInfo) (pairTok : Addr → Addr × Addr)
    (decimalsOf : Addr → ℕ) (entry : BurnEntry) (st : IndexerState) :
    Option (IndexerState × List BurnRow) :=
  let tx := txOf entry.txHash
  let toks := pairTok entry.address
  let token0_amount := token_to_decimal entry.amount0 (decimalsOf toks.1)
  let token1_amount := token_to_decimal entry.amount1 (decimalsOf toks.2)
  match st.burns tx.hash with
  | none => none
  | some burns =>
    match burns.getLast? with
    | none => none
    | some burn =>
      let burn2 := { burn with
        amount0 := token0_amount,
        amount1 := token1_amount,
        logIndex := some entry.logIndex,
        amountUSD := (0 : ℚ) }
      some (⟨st.mints, updateMap st.burns tx.hash (burns.dropLast ++ [burn2])⟩, [burn2])

/-- C3 (amended): `_handle_transfer` emits an orm Transfer row exactly when
the transfer is not the minimum-liquidity drop (`to = 0 ∧ value = 1000`) and
at least one of `from`, `to` lies outside `{zero address, pair address}` —
the source condition is a disjunction, so a row is also emitted for a mint
leg to a user (`from = 0`) and for a burn send from a user (`to = pair`),
not only in the user-to-user case. -/
theorem claim_C3_transfer_row (txOf : ℕ → TxInfo) (entry : TransferEntry)
    (st : IndexerState) :
    (handle_transfer txOf entry st).2 =
      (if ¬ (entry.to_ = ADDRESS_ZERO ∧ entry.value = MINIMUM_LIQUIDITY) ∧
          ((entry.from_ ≠ ADDRESS_ZERO ∧ entry.from_ ≠ entry.address) ∨
           (entry.to_ ≠ ADDRESS_ZERO ∧ entry.to_ ≠ entry.address)) then
        [⟨(txOf entry.txHash).id, entry.address, entry.from_, entry.to_,
          token_to_decimal entry.value 18, entry.logIndex⟩]
      else []) := by
  unfold handle_transfer
  by_cases h1 : entry.to_ = ADDRESS_ZERO ∧ entry.value = MINIMUM_LIQUIDITY
  · simp [h1]
  · by_cases h2 : (entry.from_ ≠ ADDRESS_ZERO ∧ entry.from_ ≠ entry.address) ∨
        (entry.to_ ≠ ADDRESS_ZERO ∧ entry.to_ ≠ entry.address)
    · simp only [if_neg h1]
      simp [h1, h2]
    · simp only [if_neg h1]
      simp [h1, h2]

/-- Counterexample to C3 as stated: a pure mint leg (`from = 0`,
`to = user 2`, on pair 1, value 50) is not a user-to-user transfer, yet
`_handle_transfer` emits an orm Transfer row for it. -/
theorem claim_C3_transfer_row_counterexample :
    ((handle_transfer (fun _ => ⟨10, 11, 12, 13⟩)
        ⟨1, 10, 4, ADDRESS_ZERO, 2, 50⟩ IndexerState.empty).2.map
      (fun r => (r.transaction_id, r.pair_address, r.from_, r.to_, r.logIndex))) =
      [(11, 1, ADDRESS_ZERO, 2, 4)] := by
  decide

/-- C5: for a transaction with two `Transfer(from=0)` logs (values `K_fee`
then `K_user`, the first to the fee collector, the second to the liquidity
provider) followed by one `Mint` log: the first Transfer pushes
`Mint{liquidity=K_fee, to=feeCollector, sender=null}`; the second folds the
fee mint in (`feeTo=feeCollector`, `feeLiquidity=K_fee`, `to=LP`,
`liquidity=K_user`); the Mint log then fills `sender`, `amount0`, `amount1`,
`logIndex`, so exactly one Mint row, with the fee fields set, is emitted. -/
theorem claim_C5_mint_fee_fold (tx : TxInfo) (pair feeCollector LP S : Addr)
    (K_fee K_user X Y i1 i2 i3 : ℕ)
    (pairTok : Addr → Addr × Addr) (decimalsOf : Addr → ℕ)
    (hpair : pair ≠ ADDRESS_ZERO) (hfc0 : feeCollector ≠ ADDRESS_ZERO)
    (hfcp : feeCollector ≠ pair) (hLP0 : LP ≠ ADDRESS_ZERO) (hLPp : LP ≠ pair) :
    ((handle_transfer (fun _ => tx) ⟨pair, tx.hash, i1, ADDRESS_ZERO, feeCollector, K_fee⟩
        IndexerState.empty).1.mints tx.hash =
      some [⟨tx.id, pair, tx.timestamp, token_to_decimal K_fee 18,
        none, 0, 0, feeCollector, none, 0, none, none⟩]) ∧
    ((handle_transfer (fun _ => tx) ⟨pair, tx.hash, i2, ADDRESS_ZERO, LP, K_user⟩
        (handle_transfer (fun _ => tx) ⟨pair, tx.hash, i1, ADDRESS_ZERO, feeCollector, K_fee⟩
          IndexerState.empty).1).1.mints tx.hash =
      some [⟨tx.id, pair, tx.timestamp, token_to_decimal K_user 18,
        none, 0, 0, LP, none, 0, some feeCollector, some (token_to_decimal K_fee 18)⟩]) ∧
    ((handle_mint (fun _ => tx) pairTok decimalsOf ⟨pair, tx.hash, i3, S, X, Y⟩
        (handle_transfer (fun _ => tx) ⟨pair, tx.hash, i2, ADDRESS_ZERO, LP, K_user⟩
          (handle_transfer (fun _ => tx) ⟨pair, tx.hash, i1, ADDRESS_ZERO, feeCollector, K_fee⟩
            IndexerState.empty).1).1).map Prod.snd =
      some [⟨tx.id, pair, tx.timestamp, token_to_decimal K_user 18, some S,
        token_to_decimal X (decimalsOf (pairTok pair).1),
        token_to_decimal Y (decimalsOf (pairTok pair).2),
        LP, some i3, 0, some feeCollector, some (token_to_decimal K_fee 18)⟩]) ∧
    ((handle_mint (fun _ => tx) pairTok decimalsOf ⟨pair, tx.hash, i3, S, X, Y⟩
        (handle_transfer (fun _ => tx) ⟨pair, tx.hash, i2, ADDRESS_ZERO, LP, K_user⟩
          (handle_transfer (fun _ => tx) ⟨pair, tx.hash, i1, ADDRESS_ZERO, feeCollector, K_fee⟩
            IndexerState.empty).1).1).map (fun r => r.1.mints tx.hash) =
      some (some [⟨tx.id, pair, tx.timestamp, token_to_decimal K_user 18, some S,
        token_to_decimal X (decimalsOf (pairTok pair).1),
        token_to_decimal Y (decimalsOf (pairTok pair).2),
        LP, some i3, 0, some feeCollector, some (token_to_decimal K_fee 18)⟩])) := by
  have h1 : ¬ (feeCollector = ADDRESS_ZERO ∧ K_fee = MINIMUM_LIQUIDITY) := by
    intro h; exact hfc0 h.1
  have h2 : ¬ (LP = ADDRESS_ZERO ∧ K_user = MINIMUM_LIQUIDITY) := by
    intro h; exact hLP0 h.1
  have h3 : ¬ (ADDRESS_ZERO = pair ∧ feeCollector = ADDRESS_ZERO) := by
    intro h; exact hpair h.1.symm
  have h4 : ¬ (ADDRESS_ZERO = pair ∧ LP = ADDRESS_ZERO) := by
    intro h; exact hpair h.1.symm
  refine ⟨?_, ?_, ?_, ?_⟩ <;>
    simp [handle_transfer, handle_mint, IndexerState.empty, updateMap, is_complete,
      h1, h2, h3, h4, hfcp, hLPp]

/-- C4 (amended): for a transaction whose logs contain, in order,
`Transfer(from=F, to=pair, value=L)` (`F` a user), then
`Transfer(from=pair, to=0, value=L)`, then `Burn(sender=S, amount0=X,
amount1=Y, to=T)` with `L ≠ MINIMUM_LIQUIDITY`, processing them in one job
yields exactly one Burn row with `liquidity=L`, `amount0=X`, `amount1=Y`,
`logIndex` from the Burn log and `needsComplete=false`; its `sender` is `F`
(the from-address of the pair-directed Transfer) and its `to` is the pair
address — `_handle_burn` does not copy `sender`/`to` from the Burn args. -/
theorem claim_C4_burn_completion (tx : TxInfo) (pair F S T : Addr)
    (L X Y i1 i2 i3 : ℕ)
    (pairTok : Addr → Addr × Addr) (decimalsOf : Addr → ℕ)
    (hpair : pair ≠ ADDRESS_ZERO) (hF0 : F ≠ ADDRESS_ZERO) (hFp : F ≠ pair)
    (hL : L ≠ MINIMUM_LIQUIDITY) :
    ((handle_burn (fun _ => tx) pairTok decimalsOf ⟨pair, tx.hash, i3, S, X, Y, T⟩
        (handle_transfer (fun _ => tx) ⟨pair, tx.hash, i2, pair, ADDRESS_ZERO, L⟩
          (handle_transfer (fun _ => tx) ⟨pair, tx.hash, i1, F, pair, L⟩
            IndexerState.empty).1).1).map Prod.snd =
      some [⟨tx.id, pair, tx.timestamp, token_to_decimal L 18, some F,
        token_to_decimal X (decimalsOf (pairTok pair).1),
        token_to_decimal Y (decimalsOf (pairTok pair).2),
        some pair, some i3, 0, false, none, none⟩]) ∧
    ((handle_burn (fun _ => tx) pairTok decimalsOf ⟨pair, tx.hash, i3, S, X, Y, T⟩
        (handle_transfer (fun _ => tx) ⟨pair, tx.hash, i2, pair, ADDRESS_ZERO, L⟩
          (handle_transfer (fun _ => tx) ⟨pair, tx.hash, i1, F, pair, L⟩
            IndexerState.empty).1).1).map (fun r => r.1.burns tx.hash) =
      some (some [⟨tx.id, pair, tx.timestamp, token_to_decimal L 18, some F,
        token_to_decimal X (decimalsOf (pairTok pair).1),
        token_to_decimal Y (decimalsOf (pairTok pair).2),
        some pair, some i3, 0, false, none, none⟩])) := by
  have h1 : ¬ (pair = ADDRESS_ZERO ∧ L = MINIMUM_LIQUIDITY) := by
    intro h; exact hpair h.1
  have h2 : ¬ (ADDRESS_ZERO = ADDRESS_ZERO ∧ L = MINIMUM_LIQUIDITY) := by
    intro h; exact hL h.2
  have h3 : ¬ (F = ADDRESS_ZERO) := hF0
  have h4 : ¬ (F = pair ∧ pair = ADDRESS_ZERO) := by
    intro h; exact hpair h.2
  constructor <;>
    simp [handle_transfer, handle_burn, IndexerState.empty, updateMap, is_complete,
      h1, h2, h3, h4, hF0, hFp, hpair, hL, Ne.symm hpair]

/-- Counterexample to C4 as stated: with `pair = 1`, first-transfer sender
`F = 2`, Burn args `sender = S = 3`, `to = T = 4`, the resulting Burn row
has `sender = 2` and `to = 1` (pair), not `S = 3` / `T = 4` as claimed. -/
theorem claim_C4_burn_completion_counterexample :
    ((handle_burn (fun _ => ⟨100, 11, 12, 13⟩) (fun _ => (8, 9)) (fun _ => 0)
        ⟨1, 100, 2, 3, 6, 7, 4⟩
        ((handle_transfer (fun _ => ⟨100, 11, 12, 13⟩) ⟨1, 100, 1, 1, ADDRESS_ZERO, 5⟩
          ((handle_transfer (fun _ => ⟨100, 11, 12, 13⟩) ⟨1, 100, 0, 2, 1, 5⟩
            IndexerState.empty).1)).1)).map
      (fun r => r.2.map (fun b => (b.sender, b.to_, b.needsComplete)))) =
      some [(some 2, some 1, false)] := by
  decide

/-- Witness for C5 at `tx = ⟨100, 11, 12, 13⟩`, `pair = 1`,
`feeCollector = 2`, `LP = 3`, `S = 4`, `K_fee = 5`, `K_user = 6`,
`X = 7`, `Y = 8`, log indices 0, 1, 2. -/
theorem claim_C5_mint_fee_fold_witness :
    ((handle_transfer (fun _ => (⟨100, 11, 12, 13⟩ : TxInfo)) ⟨1, 100, 0, ADDRESS_ZERO, 2, 5⟩
        IndexerState.empty).1.mints 100 =
      some [⟨11, 1, 12, token_to_decimal 5 18, none, 0, 0, 2, none, 0, none, none⟩]) ∧
    ((handle_transfer (fun _ => (⟨100, 11, 12, 13⟩ : TxInfo)) ⟨1, 100, 1, ADDRESS_ZERO, 3, 6⟩
        (handle_transfer (fun _ => (⟨100, 11, 12, 13⟩ : TxInfo)) ⟨1, 100, 0, ADDRESS_ZERO, 2, 5⟩
          IndexerState.empty).1).1.mints 100 =
      some [⟨11, 1, 12, token_to_decimal 6 18,
        none, 0, 0, 3, none, 0, some 2, some (token_to_decimal 5 18)⟩]) ∧
    ((handle_mint (fun _ => (⟨100, 11, 12, 13⟩ : TxInfo)) (fun _ => (8, 9)) (fun _ => 18)
        ⟨1, 100, 2, 4, 7, 8⟩
        (handle_transfer (fun _ => (⟨100, 11, 12, 13⟩ : TxInfo)) ⟨1, 100, 1, ADDRESS_ZERO, 3, 6⟩
          (handle_transfer (fun _ => (⟨100, 11, 12, 13⟩ : TxInfo)) ⟨1, 100, 0, ADDRESS_ZERO, 2, 5⟩
            IndexerState.empty).1).1).map Prod.snd =
      some [⟨11, 1, 12, token_to_decimal 6 18, some 4,
        token_to_decimal 7 ((fun (_ : Addr) => 18) ((fun (_ : Addr) => ((8 : Addr), (9 : Addr))) 1).1),
        token_to_decimal 8 ((fun (_ : Addr) => 18) ((fun (_ : Addr) => ((8 : Addr), (9 : Addr))) 1).2),
        3, some 2, 0, some 2, some (token_to_decimal 5 18)⟩]) ∧
    ((handle_mint (fun _ => (⟨100, 11, 12, 13⟩ : TxInfo)) (fun _ => (8, 9)) (fun _ => 18)
        ⟨1, 100, 2, 4, 7, 8⟩
        (handle_transfer (fun _ => (⟨100, 11, 12, 13⟩ : TxInfo)) ⟨1, 100, 1, ADDRESS_ZERO, 3, 6⟩
          (handle_transfer (fun _ => (⟨100, 11, 12, 13⟩ : TxInfo)) ⟨1, 100, 0, ADDRESS_ZERO, 2, 5⟩
            IndexerState.empty).1).1).map (fun r => r.1.mints 100) =
      some (some [⟨11, 1, 12, token_to_decimal 6 18, some 4,
        token_to_decimal 7 ((fun (_ : Addr) => 18) ((fun (_ : Addr) => ((8 : Addr), (9 : Addr))) 1).1),
        token_to_decimal 8 ((fun (_ : Addr) => 18) ((fun (_ : Addr) => ((8 : Addr), (9 : Addr))) 1).2),
        3, some 2, 0, some 2, some (token_to_decimal 5 18)⟩])) :=
  claim_C5_mint_fee_fold ⟨100, 11, 12, 13⟩ 1 2 3 4 5 6 7 8 0 1 2
    (fun _ => (8, 9)) (fun _ => 18)
    (by decide) (by decide) (by decide) (by decide) (by decide)

/-- Witness for C4 (amended) at `tx = ⟨100, 11, 12, 13⟩`, `pair = 1`,
`F = 2`, `S = 3`, `T = 4`, `L = 5`, `X = 6`, `Y = 7`, log indices 0, 1, 2. -/
theorem claim_C4_burn_completion_witness :
    ((handle_burn (fun _ => (⟨100, 11, 12, 13⟩ : TxInfo)) (fun _ => (8, 9)) (fun _ => 18)
        ⟨1, 100, 2, 3, 6, 7, 4⟩
        (handle_transfer (fun _ => (⟨100, 11, 12, 13⟩ : TxInfo)) ⟨1, 100, 1, 1, ADDRESS_ZERO, 5⟩
          (handle_transfer (fun _ => (⟨100, 11, 12, 13⟩ : TxInfo)) ⟨1, 100, 0, 2, 1, 5⟩
            IndexerState.empty).1).1).map Prod.snd =
      some [⟨11, 1, 12, token_to_decimal 5 18, some 2,
        token_to_decimal 6 ((fun (_ : Addr) => 18) ((fun (_ : Addr) => ((8 : Addr), (9 : Addr))) 1).1),
        token_to_decimal 7 ((fun (_ : Addr) => 18) ((fun (_ : Addr) => ((8 : Addr), (9 : Addr))) 1).2),
        some 1, some 2, 0, false, none, none⟩]) ∧
    ((handle_burn (fun _ => (⟨100, 11, 12, 13⟩ : TxInfo)) (fun _ => (8, 9)) (fun _ => 18)
        ⟨1, 100, 2, 3, 6, 7, 4⟩
        (handle_transfer (fun _ => (⟨100, 11, 12, 13⟩ : TxInfo)) ⟨1, 100, 1, 1, ADDRESS_ZERO, 5⟩
          (handle_transfer (fun _ => (⟨100, 11, 12, 13⟩ : TxInfo)) ⟨1, 100, 0, 2, 1, 5⟩
            IndexerState.empty).1).1).map (fun r => r.1.burns 100) =
      some (some [⟨11, 1, 12, token_to_decimal 5 18, some 2,
        token_to_decimal 6 ((fun (_ : Addr) => 18) ((fun (_ : Addr) => ((8 : Addr), (9 : Addr))) 1).1),
        token_to_decimal 7 ((fun (_ : Addr) => 18) ((fun (_ : Addr) => ((8 : Addr), (9 : Addr))) 1).2),
        some 1, some 2, 0, false, none, none⟩])) :=
  claim_C4_burn_completion ⟨100, 11, 12, 13⟩ 1 2 3 4 5 6 7 0 1 2
    (fun _ => (8, 9)) (fun _ => 18)
    (by decide) (by decide) (by decide) (by decide)

/-! ## Bundle stage initial price (xquery/event/processor_exchange_bundle.py)

The database tables read by `_find_initial_price` / `_init_prices` are
modelled as lists of rows; the SQL `ORDER BY ... DESC LIMIT 1` queries become
maximum selections over the filtered lists (SQL leaves the choice among
duplicate keys unspecified; the selection below keeps the later row on
ties). -/

/-- Orm `Sync` row fields used by the bundle stage (`blockNumber` comes from
the joined transaction's block). -/
structure SyncRow where
  pair_address : Addr
  blockNumber : ℕ
  logIndex : ℕ
  reserve0 : ℚ
  reserve1 : ℚ
deriving Repr, DecidableEq

/-- Orm `Block` row fields used by the bundle stage. -/
structure BlockRow where
  id : ℕ
  number : ℕ
deriving Repr, DecidableEq

/-- Orm `Bundle` row as produced by the bundle stage (`block_id` is `None`
in python when no block precedes the interval). -/
structure BundleRow where
  nativePrice : ℚ
  block_id : Option ℕ
  logIndex : ℕ
deriving Repr, DecidableEq

/-- The tables read by the bundle stage. -/
structure BundleDB where
  syncs : List SyncRow
  blocks : List BlockRow
  bundles : List BundleRow

/-- Embeds `SELECT ... FROM Block WHERE number < a ORDER BY number DESC
LIMIT 1` (applied to an already filtered list): the row with the greatest
block number. -/
def pickMaxBlock : List BlockRow → Option BlockRow
  | [] => none
  | b :: rest =>
    match pickMaxBlock rest with
    | none => some b
    | some m => if m.number < b.number then some b else some m

/-- Embeds `SELECT ... FROM Sync ... ORDER BY Block.number DESC,
Sync.logIndex DESC LIMIT 1` (applied to an already filtered list): the row
with the lexicographically greatest `(blockNumber, logIndex)`. -/
def pickMaxSync : List SyncRow → Option SyncRow
  | [] => none
  | s :: rest =>
    match pickMaxSync rest with
    | none => some s
    | some m =>
      if m.blockNumber < s.blockNumber ∨
         (m.blockNumber = s.blockNumber ∧ m.logIndex < s.logIndex) then some s
      else some m

/-- Embeds `EventProcessorStageExchange_Bundle._find_initial_price(
start_block, pair_address, order)`: the most recent Sync strictly before
`start_block` for the pair gives `calc_price(reserve0, reserve1, order)`;
with no such Sync the result is `PriceInfo(0, 0)`. -/
def find_initial_price (db : BundleDB) (start_block : ℕ) (pair_address : Addr)
    (order : Bool) : PriceInfo :=
  match pickMaxSync (db.syncs.filter
      (fun s => decide (s.blockNumber < start_block) && decide (s.pair_address = pair_address))) with
  | none => ⟨0, 0⟩
  | some s => calc_price s.reserve0 s.reserve1 order

/-- Embeds `EventProcessorStageExchange_Bundle._init_prices(start_block,
pair_addresses)`: compute the per-pair initial prices, the transition price
(weighted average, or the quantized default when the total weight is not
positive), locate the last block strictly before `start_block`, and emit one
synthetic bundle at `logIndex = 0x7FFFFFFF` unless one already exists there —
in which case the stored price is asserted equal (modelled as `.error`). -/
def init_prices (db : BundleDB) (start_block : ℕ) (pair_infos : List (Addr × Bool))
    (default_price : ℚ) : Except String (List BundleRow) :=
  let price_infos := pair_infos.map (fun pi => find_initial_price db start_block pi.1 pi.2)
  let price :=
    if 0 < (price_infos.map (fun info => info.weight)).sum then
      calc_weighted_average price_infos
    else
      quantize18 default_price
  match pickMaxBlock (db.blocks.filter (fun blk => blk.number < start_block)) with
  | some block =>
    match db.bundles.find? (fun bd =>
        decide (bd.block_id = some block.id) && decide (bd.logIndex = 0x7FFFFFFF)) with
    | some bundle =>
      if bundle.nativePrice = price then .ok []
      else .error "assert bundle.nativePrice == price"
    | none => .ok [⟨price, some block.id, 0x7FFFFFFF⟩]
  | none => .ok [⟨price, none, 0x7FFFFFFF⟩]

theorem pickMaxBlock_cons_ne_none (b : BlockRow) (rest : List BlockRow) :
    pickMaxBlock (b :: rest) ≠ none := by
  rw [pickMaxBlock]
  cases pickMaxBlock rest with
  | none => simp
  | some m => by_cases hc : m.number < b.number <;> simp [hc]

theorem pickMaxSync_cons_ne_none (s : SyncRow) (rest : List SyncRow) :
    pickMaxSync (s :: rest) ≠ none := by
  rw [pickMaxSync]
  cases pickMaxSync rest with
  | none => simp
  | some m =>
    by_cases hc : m.blockNumber < s.blockNumber ∨
        (m.blockNumber = s.blockNumber ∧ m.logIndex < s.logIndex) <;> simp [hc]

theorem pickMaxBlock_spec (l : List BlockRow) (blk : BlockRow)
    (h : pickMaxBlock l = some blk) :
    blk ∈ l ∧ ∀ b2 ∈ l, b2.number ≤ blk.number := by
  induction l generalizing blk with
  | nil => simp [pickMaxBlock] at h
  | cons b rest ih =>
    rw [pickMaxBlock] at h
    split at h
    · rename_i heq
      injection h with h
      subst h
      refine ⟨by simp, ?_⟩
      intro b2 hb2
      rcases List.mem_cons.mp hb2 with h | h
      · subst h; exact le_refl _
      · cases rest with
        | nil => simp at h
        | cons x xs => exact absurd heq (pickMaxBlock_cons_ne_none x xs)
    · rename_i m heq
      obtain ⟨hm_mem, hm_max⟩ := ih m heq
      split at h
      · rename_i hc
        injection h with h
        subst h
        refine ⟨by simp, ?_⟩
        intro b2 hb2
        rcases List.mem_cons.mp hb2 with h | h
        · subst h; exact le_refl _
        · exact le_trans (hm_max b2 h) (le_of_lt hc)
      · rename_i hc
        injection h with h
        subst h
        refine ⟨List.mem_cons_of_mem _ hm_mem, ?_⟩
        intro b2 hb2
        rcases List.mem_cons.mp hb2 with h | h
        · subst h; omega
        · exact hm_max b2 h

theorem pickMaxSync_spec (l : List SyncRow) (s : SyncRow)
    (h : pickMaxSync l = some s) :
    s ∈ l ∧ ∀ s2 ∈ l, s2.blockNumber < s.blockNumber ∨
      (s2.blockNumber = s.blockNumber ∧ s2.logIndex ≤ s.logIndex) := by
  induction l generalizing s with
  | nil => simp [pickMaxSync] at h
  | cons x rest ih =>
    rw [pickMaxSync] at h
    split at h
    · rename_i heq
      injection h with h
      subst h
      refine ⟨by simp, ?_⟩
      intro s2 hs2
      rcases List.mem_cons.mp hs2 with h | h
      · subst h; omega
      · cases rest with
        | nil => simp at h
        | cons y ys => exact absurd heq (pickMaxSync_cons_ne_none y ys)
    · rename_i m heq
      obtain ⟨hm_mem, hm_max⟩ := ih m heq
      split at h
      · rename_i hc
        injection h with h
        subst h
        refine ⟨by simp, ?_⟩
        intro s2 hs2
        rcases List.mem_cons.mp hs2 with h | h
        · subst h; omega
        · have := hm_max s2 h; omega
      · rename_i hc
        injection h with h
        subst h
        refine ⟨List.mem_cons_of_mem _ hm_mem, ?_⟩
        intro s2 hs2
        rcases List.mem_cons.mp hs2 with h | h
        · subst h; omega
        · exact hm_max s2 h

theorem sum_pos_of_mem_pos {l : List ℚ} (hnn : ∀ x ∈ l, 0 ≤ x)
    {x : ℚ} (hx : x ∈ l) (hxpos : 0 < x) : 0 < l.sum := by
  induction l with
  | nil => simp at hx
  | cons y ys ih =>
    rw [List.sum_cons]
    rcases List.mem_cons.mp hx with h | h
    · subst h
      have : 0 ≤ ys.sum := List.sum_nonneg (fun z hz => hnn z (by simp [hz]))
      linarith
    · have h1 : 0 ≤ y := hnn y (by simp)
      have h2 : 0 < ys.sum := ih (fun z hz => hnn z (by simp [hz])) h
      linarith

/-- C6: for a processed interval starting at `a`, `_init_prices` records one
synthetic Bundle with `logIndex = 2^31 - 1` on the last indexed block
strictly before `a`, whose price is the weighted average of the per-pair
initial prices derived from each pair's most recent Sync strictly before `a`
(or the quantized configured default price when all weights are zero); if
such a bundle already exists there, no new one is emitted and its stored
price must equal the newly computed price (otherwise the assertion fires). -/
theorem claim_C6_bundle_init_prices (db : BundleDB) (a : ℕ)
    (pair_infos : List (Addr × Bool)) (dflt : ℚ) (blk : BlockRow) (price : ℚ)
    (hprice : price =
      (if 0 < ((pair_infos.map (fun pi => find_initial_price db a pi.1 pi.2)).map
            (fun info => info.weight)).sum then
        calc_weighted_average (pair_infos.map (fun pi => find_initial_price db a pi.1 pi.2))
      else quantize18 dflt))
    (hmax : pickMaxBlock (db.blocks.filter (fun b2 => b2.number < a)) = some blk)
    (hw : ∀ pi ∈ pair_infos, 0 ≤ (find_initial_price db a pi.1 pi.2).weight) :
    (db.bundles.find? (fun bd =>
        decide (bd.block_id = some blk.id) && decide (bd.logIndex = 0x7FFFFFFF)) = none →
      init_prices db a pair_infos dflt = .ok [⟨price, some blk.id, 2 ^ 31 - 1⟩]) ∧
    (∀ bd, db.bundles.find? (fun bd2 =>
        decide (bd2.block_id = some blk.id) && decide (bd2.logIndex = 0x7FFFFFFF)) = some bd →
      (init_prices db a pair_infos dflt = .ok [] ↔ bd.nativePrice = price)) ∧
    (blk ∈ db.blocks ∧ blk.number < a ∧
      ∀ b2 ∈ db.blocks, b2.number < a → b2.number ≤ blk.number) ∧
    ((∀ pi ∈ pair_infos, (find_initial_price db a pi.1 pi.2).weight = 0) →
      price = quantize18 dflt) ∧
    ((∃ pi ∈ pair_infos, (find_initial_price db a pi.1 pi.2).weight ≠ 0) →
      price = calc_weighted_average
        (pair_infos.map (fun pi => find_initial_price db a pi.1 pi.2))) ∧
    (∀ (addr : Addr) (order : Bool) (s : SyncRow),
      pickMaxSync (db.syncs.filter (fun s2 =>
          decide (s2.blockNumber < a) && decide (s2.pair_address = addr))) = some s →
        find_initial_price db a addr order = calc_price s.reserve0 s.reserve1 order ∧
        s ∈ db.syncs ∧ s.blockNumber < a ∧ s.pair_address = addr ∧
        (∀ s2 ∈ db.syncs, s2.blockNumber < a → s2.pair_address = addr →
          s2.blockNumber < s.blockNumber ∨
            (s2.blockNumber = s.blockNumber ∧ s2.logIndex ≤ s.logIndex))) ∧
    (∀ (addr : Addr) (order : Bool),
      db.syncs.filter (fun s2 =>
          decide (s2.blockNumber < a) && decide (s2.pair_address = addr)) = [] →
        find_initial_price db a addr order = ⟨0, 0⟩) := by
  refine ⟨?_, ?_, ?_, ?_, ?_, ?_, ?_⟩
  · intro hfind
    rw [init_prices, hmax]
    simp only [hfind, ← hprice]
    norm_num
  · intro bd hfind
    rw [init_prices, hmax]
    simp only [hfind, ← hprice]
    by_cases hp : bd.nativePrice = price
    · simp [hp]
    · simp [hp]
  · obtain ⟨hmem, hmaxi⟩ := pickMaxBlock_spec _ _ hmax
    have hmem2 := List.mem_filter.mp hmem
    refine ⟨hmem2.1, by simpa using hmem2.2, ?_⟩
    intro b2 hb2 hb2a
    exact hmaxi b2 (List.mem_filter.mpr ⟨hb2, by simpa using hb2a⟩)
  · intro hz
    have : ((pair_infos.map (fun pi => find_initial_price db a pi.1 pi.2)).map
        (fun info => info.weight)).sum = 0 := by
      apply List.sum_eq_zero
      intro x hx
      obtain ⟨info, hinfo, hxeq⟩ := List.mem_map.mp hx
      obtain ⟨pi, hpi, hieq⟩ := List.mem_map.mp hinfo
      subst hieq
      rw [← hxeq]
      exact hz pi hpi
    rw [hprice, this]
    simp
  · rintro ⟨pi, hpi, hwne⟩
    have hwpos : 0 < (find_initial_price db a pi.1 pi.2).weight :=
      lt_of_le_of_ne (hw pi hpi) (Ne.symm hwne)
    have hsum : 0 < ((pair_infos.map (fun pi => find_initial_price db a pi.1 pi.2)).map
        (fun info => info.weight)).sum := by
      apply sum_pos_of_mem_pos
      · intro x hx
        obtain ⟨info, hinfo, hxeq⟩ := List.mem_map.mp hx
        obtain ⟨pi2, hpi2, hieq⟩ := List.mem_map.mp hinfo
        subst hieq
        rw [← hxeq]
        exact hw pi2 hpi2
      · exact List.mem_map.mpr ⟨find_initial_price db a pi.1 pi.2,
          List.mem_map.mpr ⟨pi, hpi, rfl⟩, rfl⟩
      · exact hwpos
    rw [hprice, if_pos hsum]
  · intro addr order s hs
    obtain ⟨hmem, hmaxi⟩ := pickMaxSync_spec _ _ hs
    have hmem2 := List.mem_filter.mp hmem
    have hmem3 : s.blockNumber < a ∧ s.pair_address = addr := by
      have := hmem2.2
      simp at this
      exact this
    refine ⟨by rw [find_initial_price, hs], hmem2.1, hmem3.1, hmem3.2, ?_⟩
    intro s2 hs2 hs2a hs2p
    exact hmaxi s2 (List.mem_filter.mpr ⟨hs2, by simp [hs2a, hs2p]⟩)
  · intro addr order hnil
    rw [find_initial_price, hnil]
    rfl

/-- Witness for C6: database with one block (id 1 at height 5), no syncs, no
bundles; interval start `a = 7`, no tracked pairs, default price 30. -/
theorem claim_C6_bundle_init_prices_witness :
    ((⟨[], [⟨1, 5⟩], []⟩ : BundleDB).bundles.find? (fun bd =>
        decide (bd.block_id = some (⟨1, 5⟩ : BlockRow).id) &&
        decide (bd.logIndex = 0x7FFFFFFF)) = none →
      init_prices ⟨[], [⟨1, 5⟩], []⟩ 7 [] 30 =
        .ok [⟨quantize18 30, some (⟨1, 5⟩ : BlockRow).id, 2 ^ 31 - 1⟩]) ∧
    (∀ bd, (⟨[], [⟨1, 5⟩], []⟩ : BundleDB).bundles.find? (fun bd2 =>
        decide (bd2.block_id = some (⟨1, 5⟩ : BlockRow).id) &&
        decide (bd2.logIndex = 0x7FFFFFFF)) = some bd →
      (init_prices ⟨[], [⟨1, 5⟩], []⟩ 7 [] 30 = .ok [] ↔ bd.nativePrice = quantize18 30)) ∧
    ((⟨1, 5⟩ : BlockRow) ∈ (⟨[], [⟨1, 5⟩], []⟩ : BundleDB).blocks ∧
      (⟨1, 5⟩ : BlockRow).number < 7 ∧
      ∀ b2 ∈ (⟨[], [⟨1, 5⟩], []⟩ : BundleDB).blocks, b2.number < 7 →
        b2.number ≤ (⟨1, 5⟩ : BlockRow).number) ∧
    ((∀ pi ∈ ([] : List (Addr × Bool)),
        (find_initial_price ⟨[], [⟨1, 5⟩], []⟩ 7 pi.1 pi.2).weight = 0) →
      quantize18 30 = quantize18 30) ∧
    ((∃ pi ∈ ([] : List (Addr × Bool)),
        (find_initial_price ⟨[], [⟨1, 5⟩], []⟩ 7 pi.1 pi.2).weight ≠ 0) →
      quantize18 30 = calc_weighted_average
        (([] : List (Addr × Bool)).map
          (fun pi => find_initial_price ⟨[], [⟨1, 5⟩], []⟩ 7 pi.1 pi.2))) ∧
    (∀ (addr : Addr) (order : Bool) (s : SyncRow),
      pickMaxSync ((⟨[], [⟨1, 5⟩], []⟩ : BundleDB).syncs.filter (fun s2 =>
          decide (s2.blockNumber < 7) && decide (s2.pair_address = addr))) = some s →
        find_initial_price ⟨[], [⟨1, 5⟩], []⟩ 7 addr order =
          calc_price s.reserve0 s.reserve1 order ∧
        s ∈ (⟨[], [⟨1, 5⟩], []⟩ : BundleDB).syncs ∧ s.blockNumber < 7 ∧
        s.pair_address = addr ∧
        (∀ s2 ∈ (⟨[], [⟨1, 5⟩], []⟩ : BundleDB).syncs, s2.blockNumber < 7 →
          s2.pair_address = addr →
          s2.blockNumber < s.blockNumber ∨
            (s2.blockNumber = s.blockNumber ∧ s2.logIndex ≤ s.logIndex))) ∧
    (∀ (addr : Addr) (order : Bool),
      (⟨[], [⟨1, 5⟩], []⟩ : BundleDB).syncs.filter (fun s2 =>
          decide (s2.blockNumber < 7) && decide (s2.pair_address = addr)) = [] →
        find_initial_price ⟨[], [⟨1, 5⟩], []⟩ 7 addr order = ⟨0, 0⟩) :=
  claim_C6_bundle_init_prices ⟨[], [⟨1, 5⟩], []⟩ 7 [] 30 ⟨1, 5⟩ (quantize18 30)
    (by simp) (by decide) (by simp)

/-! ## Commit coordinator (xquery/controller.py, Controller._handle_db)

The reorder loop of the database handler thread.  Job results are
represented by their ids (the commit payload is opaque to the reordering
logic); `_commit_job` becomes appending the id to the list of committed ids.
The loop is modelled for the claim's scenario: `terminating` is set and
`job_counter = N`, so the `while ¬terminating ∨ processed < submitted`
condition reduces to `result_counter < N`; the results queue is the list of
ids in arrival order, and `queue.get` on the exhausted list is
`queue.Empty`.  Failed `assert` statements become `.error` outcomes.
`fuel` bounds the number of outer loop iterations (the live loop polls
forever); `none` means the bound was hit. -/

/-- The maximum reorder buffer size (`Controller.MAX_RESULT_STORAGE_SIZE`). -/
def MAX_RESULT_STORAGE_SIZE : ℕ := 1000

/-- The `for i, j in enumerate(a)` loop of `Controller._find_non_consecutive`:
first index `i` (counted from `i0`) with `x0 + i ≠ a[i]`, else the length. -/
def fncAux (x0 : ℕ) : ℕ → List ℕ → ℕ
  | i, [] => i
  | i, j :: rest => if x0 + i ≠ j then i else fncAux x0 (i + 1) rest

/-- Embeds `Controller._find_non_consecutive(a, key=id)` on the list of
buffered ids (including the two early-return cases of the source). -/
def find_non_consecutive : List ℕ → ℕ
  | [] => 0
  | [_] => 1
  | x :: xs => fncAux x 0 (x :: xs)

/-- State of the database handler loop: the sorted reorder buffer `storage`
(ids), `result_counter`, and the ids committed so far in commit order. -/
structure DBState where
  storage : List ℕ
  counter : ℕ
  commits : List ℕ
deriving Repr, DecidableEq

/-- Phase a) of `_handle_db`: when the buffer head matches the next expected
id, commit the consecutive prefix (found by `_find_non_consecutive`) and
drop it from the buffer. -/
def phaseA (st : DBState) : DBState :=
  match st.storage with
  | [] => st
  | x :: _ =>
    if st.counter = x then
      let pos := find_non_consecutive st.storage
      ⟨st.storage.drop pos, st.counter + pos, st.commits ++ st.storage.take pos⟩
    else st

/-- Phase b) of `_handle_db`: the inner `while count_consecutive < 20` loop.
`cc` is the remaining iteration budget (20 at entry).  A matching result is
committed and the loop continues; a non-matching one must satisfy
`id > result_counter` (else the assert fires) and is inserted into the
buffer, which is then re-sorted (python `sorted(storage)`), and the loop
breaks; an empty queue (`queue.Empty` after the 1 s timeout) breaks too. -/
def phaseB : ℕ → DBState → List ℕ → Except String (DBState × List ℕ)
  | 0, st, q => .ok (st, q)
  | cc + 1, st, q =>
    match q with
    | [] => .ok (st, q)
    | r :: q2 =>
      if st.counter = r then
        phaseB cc ⟨st.storage, st.counter + 1, st.commits ++ [r]⟩ q2
      else if st.counter < r then
        .ok (⟨(st.storage ++ [r]).insertionSort (· ≤ ·), st.counter, st.commits⟩, q2)
      else .error "assert job_result.id > result_counter"

/-- The outer loop of `Controller._handle_db` under a set terminate flag
with `job_counter = N`, together with the final
`assert len(storage) == 0`. -/
def handle_db : ℕ → ℕ → DBState → List ℕ → Option (Except String DBState)
  | 0, _, _, _ => none
  | fuel + 1, N, st, q =>
    if st.counter < N then
      if MAX_RESULT_STORAGE_SIZE ≤ st.storage.length then
        some (.error "assert len(storage) < MAX_RESULT_STORAGE_SIZE")
      else
        match phaseB 20 (phaseA st) q with
        | .error e => some (.error e)
        | .ok (st2, q2) => handle_db fuel N st2 q2
    else
      if st.storage = [] then some (.ok st)
      else some (.error "assert len(storage) == 0")

/-- Length of the maximal prefix of a list matching `e, e+1, e+2, ...`. -/
def consecLen (e : ℕ) : List ℕ → ℕ
  | [] => 0
  | j :: rest => if j = e then consecLen (e + 1) rest + 1 else 0

theorem fncAux_eq_consecLen (x0 : ℕ) (l : List ℕ) :
    ∀ i, fncAux x0 i l = i + consecLen (x0 + i) l := by
  induction l with
  | nil => intro i; simp [fncAux, consecLen]
  | cons j rest ih =>
    intro i
    rw [fncAux, consecLen]
    by_cases h : x0 + i = j
    · subst h
      simp [ih (i + 1)]
      have hrw : x0 + (i + 1) = x0 + i + 1 := by omega
      rw [hrw]
      omega
    · have hj : ¬ (j = x0 + i) := fun hh => h hh.symm
      simp [h, hj]

theorem consecLen_le_length (e : ℕ) (l : List ℕ) : consecLen e l ≤ l.length := by
  induction l generalizing e with
  | nil => simp [consecLen]
  | cons j rest ih =>
    by_cases h : j = e
    · subst h
      rw [consecLen, if_pos rfl, List.length_cons]
      exact Nat.succ_le_succ (ih (j + 1))
    · rw [consecLen, if_neg h]
      exact Nat.zero_le _

theorem consecLen_take (e : ℕ) (l : List ℕ) :
    l.take (consecLen e l) = List.range' e (consecLen e l) := by
  induction l generalizing e with
  | nil => simp [consecLen]
  | cons j rest ih =>
    by_cases h : j = e
    · subst h
      rw [consecLen, if_pos rfl, List.take_succ_cons, List.range'_succ, ih (j + 1)]
    · rw [consecLen, if_neg h]
      simp

theorem consecLen_range' (e n : ℕ) : consecLen e (List.range' e n) = n := by
  induction n generalizing e with
  | zero => simp [consecLen]
  | succ n ih =>
    rw [List.range'_succ, consecLen, if_pos rfl, ih]

theorem find_non_consecutive_eq (l : List ℕ) (c : ℕ) (h : l.head? = some c) :
    find_non_consecutive l = consecLen c l := by
  cases l with
  | nil => simp at h
  | cons x xs =>
    have hx : x = c := by simpa using h
    subst hx
    cases xs with
    | nil => simp [find_non_consecutive, consecLen]
    | cons y ys =>
      show fncAux x 0 (x :: y :: ys) = consecLen x (x :: y :: ys)
      rw [fncAux_eq_consecLen]
      simp

/-- Invariant of the database handler loop for a complete delivery of the
results `0..N-1`: committed ids form the initial segment `range counter`,
the buffer is sorted, buffer plus remaining queue hold exactly the ids
`counter..N-1`, and the buffer never holds id 0 (id 0 is always committed
straight from the queue). -/
def DBInv (N : ℕ) (st : DBState) (q : List ℕ) : Prop :=
  st.counter ≤ N ∧
  st.commits = List.range st.counter ∧
  st.storage.Sorted (· ≤ ·) ∧
  (st.storage ++ q).Perm (List.range' st.counter (N - st.counter)) ∧
  ∀ x ∈ st.storage, 0 < x

theorem DBInv.storage_le (N : ℕ) (st : DBState) (q : List ℕ) (h : DBInv N st q) :
    st.storage.length + q.length = N - st.counter := by
  have := h.2.2.2.1.length_eq
  simpa using this

theorem DBInv.storage_lt_max (N : ℕ) (st : DBState) (q : List ℕ)
    (hN : N ≤ 1000) (h : DBInv N st q) :
    st.storage.length < MAX_RESULT_STORAGE_SIZE := by
  have hlen := DBInv.storage_le N st q h
  rcases Nat.eq_zero_or_pos st.counter with hc | hc
  · -- counter = 0: the buffer omits id 0, is duplicate-free and is a subset
    -- of {1, ..., N-1}
    have hnodup : (st.storage ++ q).Nodup :=
      (h.2.2.2.1.nodup_iff).mpr (List.nodup_range' _ _)
    have hnodup2 : st.storage.Nodup := hnodup.of_append_left
    have hsub : st.storage ⊆ List.range' 1 (N - 1) := by
      intro x hx
      have hx0 : 0 < x := h.2.2.2.2 x hx
      have hxmem : x ∈ List.range' st.counter (N - st.counter) :=
        (h.2.2.2.1.mem_iff).mp (List.mem_append.mpr (Or.inl hx))
      rw [List.mem_range'] at hxmem ⊢
      obtain ⟨i, hi, hxeq⟩ := hxmem
      exact ⟨x - 1, by omega, by omega⟩
    have hle : st.storage.length ≤ N - 1 := by
      have := (hnodup2.subperm hsub).length_le
      simpa using this
    have : MAX_RESULT_STORAGE_SIZE = 1000 := rfl
    omega
  · have : MAX_RESULT_STORAGE_SIZE = 1000 := rfl
    omega

theorem phaseA_inv (N : ℕ) (st : DBState) (q : List ℕ) (h : DBInv N st q) :
    DBInv N (phaseA st) q ∧ st.counter ≤ (phaseA st).counter := by
  obtain ⟨hcle, hcom, hsort, hperm, hpos⟩ := h
  cases hst : st.storage with
  | nil =>
    rw [phaseA, hst]
    exact ⟨⟨hcle, hcom, hsort, hperm, hpos⟩, le_refl _⟩
  | cons x xs =>
    rw [phaseA, hst]
    dsimp only
    by_cases hx : st.counter = x
    · rw [if_pos hx, ← hst]
      have hhead : st.storage.head? = some st.counter := by rw [hst, hx]; rfl
      have hfnc : find_non_consecutive st.storage = consecLen st.counter st.storage :=
        find_non_consecutive_eq _ _ hhead
      set k := find_non_consecutive st.storage with hk
      have hkle : k ≤ st.storage.length := by
        rw [hfnc]; exact consecLen_le_length _ _
      have htake : st.storage.take k = List.range' st.counter k := by
        rw [hfnc]; exact consecLen_take _ _
      have hlen := hperm.length_eq
      rw [List.length_append, List.length_range'] at hlen
      have hkN : st.counter + k ≤ N := by omega
      have hsplit : List.range' st.counter (N - st.counter) =
          List.range' st.counter k ++ List.range' (st.counter + k) (N - st.counter - k) := by
        have h5 := List.range'_append st.counter k (N - st.counter - k) 1
        simp only [one_mul] at h5
        rw [h5]
        congr 1
        omega
      have hperm2 : (st.storage.drop k ++ q).Perm
          (List.range' (st.counter + k) (N - st.counter - k)) := by
        have hsd : st.storage = List.range' st.counter k ++ st.storage.drop k := by
          conv_lhs => rw [← List.take_append_drop k st.storage]
          rw [htake]
        have h3 : (List.range' st.counter k ++ (st.storage.drop k ++ q)).Perm
            (List.range' st.counter k ++ List.range' (st.counter + k) (N - st.counter - k)) := by
          rw [← List.append_assoc, ← hsd, ← hsplit]
          exact hperm
        exact (List.perm_append_left_iff _).mp h3
      refine ⟨⟨hkN, ?_, ?_, ?_, ?_⟩, by simp⟩
      · show st.commits ++ st.storage.take k = List.range (st.counter + k)
        rw [hcom, htake]
        have h6 := List.range'_append 0 st.counter k 1
        simp only [one_mul, Nat.zero_add] at h6
        rw [List.range_eq_range', List.range_eq_range', h6]
        congr 1
        omega
      · simpa using hsort.sublist (List.drop_sublist k st.storage)
      · show (List.drop k st.storage ++ q).Perm (List.range' (st.counter + k) (N - (st.counter + k)))
        have : N - (st.counter + k) = N - st.counter - k := by omega
        rw [this]
        exact hperm2
      · intro y hy
        exact hpos y (List.mem_of_mem_drop (by simpa using hy))
    · rw [if_neg hx]
      exact ⟨⟨hcle, hcom, hsort, hperm, hpos⟩, le_refl _⟩

theorem phaseB_nil (cc : ℕ) (st : DBState) : phaseB cc st [] = .ok (st, []) := by
  cases cc <;> rfl

theorem phaseB_inv (N : ℕ) : ∀ (cc : ℕ) (st : DBState) (q : List ℕ), DBInv N st q →
    ∃ st2 q2, phaseB cc st q = .ok (st2, q2) ∧ DBInv N st2 q2 ∧
      q2.length ≤ q.length ∧ (0 < cc → q ≠ [] → q2.length < q.length) := by
  intro cc
  induction cc with
  | zero =>
    intro st q h
    exact ⟨st, q, rfl, h, le_refl _, fun h0 => absurd h0 (lt_irrefl 0)⟩
  | succ cc ih =>
    intro st q h
    cases q with
    | nil => exact ⟨st, [], rfl, h, le_refl _, fun _ hne => absurd rfl hne⟩
    | cons r q2 =>
      obtain ⟨hcle, hcom, hsort, hperm, hpos⟩ := h
      have hrmem : r ∈ List.range' st.counter (N - st.counter) :=
        hperm.mem_iff.mp (List.mem_append.mpr (Or.inr (by simp)))
      rw [List.mem_range'] at hrmem
      obtain ⟨i, hi, hreq⟩ := hrmem
      simp only [one_mul] at hreq
      have hcr : st.counter ≤ r := by omega
      have hrN : r < N := by omega
      rw [phaseB]
      by_cases hr : st.counter = r
      · rw [if_pos hr]
        subst hr
        have hcN : st.counter < N := by omega
        have hinv2 : DBInv N ⟨st.storage, st.counter + 1, st.commits ++ [st.counter]⟩ q2 := by
          refine ⟨show st.counter + 1 ≤ N by omega, ?_, hsort, ?_, hpos⟩
          · show st.commits ++ [st.counter] = List.range (st.counter + 1)
            rw [hcom, List.range_succ]
          · show (st.storage ++ q2).Perm (List.range' (st.counter + 1) (N - (st.counter + 1)))
            have hn : N - st.counter = (N - st.counter - 1) + 1 := by omega
            rw [hn, List.range'_succ] at hperm
            have hmid : (st.storage ++ st.counter :: q2).Perm
                (st.counter :: (st.storage ++ q2)) := List.perm_middle
            have h7 := (List.perm_cons st.counter).mp (hmid.symm.trans hperm)
            have hn2 : N - (st.counter + 1) = N - st.counter - 1 := by omega
            rw [hn2]
            exact h7
        obtain ⟨st2, q2f, heq, hinv3, hle, _⟩ := ih _ _ hinv2
        refine ⟨st2, q2f, heq, hinv3, ?_, ?_⟩
        · exact le_trans hle (by simp)
        · intro _ _
          exact lt_of_le_of_lt hle (by simp)
      · rw [if_neg hr, if_pos (by omega)]
        refine ⟨⟨(st.storage ++ [r]).insertionSort (· ≤ ·), st.counter, st.commits⟩, q2,
          rfl, ⟨hcle, hcom, ?_, ?_, ?_⟩, by simp, fun _ _ => by simp⟩
        · exact List.sorted_insertionSort _ _
        · show ((st.storage ++ [r]).insertionSort (· ≤ ·) ++ q2).Perm
            (List.range' st.counter (N - st.counter))
          have h8 : ((st.storage ++ [r]).insertionSort (· ≤ ·) ++ q2).Perm
              ((st.storage ++ [r]) ++ q2) :=
            (List.perm_insertionSort _ _).append_right q2
          have h9 : (st.storage ++ [r]) ++ q2 = st.storage ++ (r :: q2) := by
            rw [List.append_assoc]
            rfl
          rw [h9] at h8
          exact h8.trans hperm
        · intro x hx
          have hx2 : x ∈ st.storage ++ [r] :=
            (List.perm_insertionSort (· ≤ ·) _).mem_iff.mp hx
          rcases List.mem_append.mp hx2 with h | h
          · exact hpos x h
          · have : x = r := by simpa using h
            omega

theorem phaseA_drain (c n : ℕ) (commits : List ℕ) (hn : 0 < n) :
    phaseA ⟨List.range' c n, c, commits⟩ = ⟨[], c + n, commits ++ List.range' c n⟩ := by
  obtain ⟨m, rfl⟩ : ∃ m, n = m + 1 := ⟨n - 1, by omega⟩
  have h1 : List.range' c (m + 1) = c :: List.range' (c + 1) m := List.range'_succ c m 1
  have hfnc : find_non_consecutive (List.range' c (m + 1)) = m + 1 := by
    rw [find_non_consecutive_eq _ c (by rw [h1]; rfl), consecLen_range']
  have hlen : (List.range' c (m + 1)).length = m + 1 := List.length_range' _ _ _
  rw [phaseA]
  rw [show (⟨List.range' c (m + 1), c, commits⟩ : DBState).storage =
    c :: List.range' (c + 1) m from h1]
  dsimp only
  rw [if_pos rfl]
  rw [show (c :: List.range' (c + 1) m) = List.range' c (m + 1) from h1.symm]
  rw [hfnc]
  rw [show List.drop (m + 1) (List.range' c (m + 1)) = [] from
    List.drop_eq_nil_of_le (le_of_eq hlen)]
  rw [show List.take (m + 1) (List.range' c (m + 1)) = List.range' c (m + 1) from
    List.take_of_length_le (le_of_eq hlen)]

theorem handle_db_run (N : ℕ) (hN : N ≤ 1000) :
    ∀ (fuel : ℕ) (st : DBState) (q : List ℕ), DBInv N st q → q.length + 2 ≤ fuel →
      handle_db fuel N st q = some (.ok ⟨[], N, List.range N⟩) := by
  intro fuel
  induction fuel with
  | zero =>
    intro st q _ hf
    exact absurd hf (by omega)
  | succ fuel ih =>
    intro st q hinv hf
    by_cases hdone : st.counter < N
    · have hsize : ¬ (MAX_RESULT_STORAGE_SIZE ≤ st.storage.length) := by
        have := DBInv.storage_lt_max N st q hN hinv
        omega
      rw [handle_db, if_pos hdone, if_neg hsize]
      obtain ⟨hinvA, hcA⟩ := phaseA_inv N st q hinv
      cases q with
      | nil =>
        obtain ⟨s, c, cm⟩ := st
        obtain ⟨hcle, hcom, hsort, hperm, hpos⟩ := hinv
        simp only at hcle hcom hsort hperm hpos hdone
        have hstor : s = List.range' c (N - c) := by
          apply List.eq_of_perm_of_sorted (by simpa using hperm) hsort
          exact (List.pairwise_lt_range' c (N - c) 1).imp le_of_lt
        have h0 : 0 < N - c := by omega
        have hA : phaseA ⟨s, c, cm⟩ = ⟨[], N, List.range N⟩ := by
          rw [hstor, hcom, phaseA_drain c (N - c) (List.range c) h0]
          have hsum : c + (N - c) = N := by omega
          have hr : List.range c ++ List.range' c (N - c) = List.range N := by
            have h6 := List.range'_append 0 c (N - c) 1
            simp only [one_mul, Nat.zero_add] at h6
            rw [List.range_eq_range', List.range_eq_range', h6]
            congr 1
            omega
          rw [hsum, hr]
        rw [hA, phaseB_nil]
        dsimp only
        cases fuel with
        | zero => exact absurd hf (by simp)
        | succ fuel2 =>
          rw [handle_db,
            if_neg (show ¬ ((⟨[], N, List.range N⟩ : DBState).counter < N) from lt_irrefl N),
            if_pos rfl]
      | cons r q2 =>
        obtain ⟨st2, q2f, heq, hinv2, hle, hlt⟩ := phaseB_inv N 20 (phaseA st) (r :: q2) hinvA
        rw [heq]
        apply ih st2 q2f hinv2
        have := hlt (by omega) (by simp)
        simp only [List.length_cons] at hf this
        omega
    · obtain ⟨hcle, hcom, hsort, hperm, hpos⟩ := hinv
      have hcN : st.counter = N := by omega
      have hnil : st.storage ++ q = [] := by
        apply List.Perm.eq_nil
        have : N - st.counter = 0 := by omega
        rw [this] at hperm
        simpa using hperm
      have hstor : st.storage = [] := by
        rcases List.append_eq_nil.mp hnil with ⟨h1, _⟩
        exact h1
      have hqnil : q = [] := by
        rcases List.append_eq_nil.mp hnil with ⟨_, h2⟩
        exact h2
      have hst : st = ⟨[], N, List.range N⟩ := by
        obtain ⟨s, c, cm⟩ := st
        simp only at hstor hcN hcom
        subst hstor hcN hcom
        rfl
      rw [handle_db, if_neg hdone, hst]
      rw [if_pos rfl]

/-- C1 (amended): whenever the commit coordinator receives the job results
with ids `0..N-1` in any order with `N ≤ 1000` (so the reorder buffer never
reaches `MAX_RESULT_STORAGE_SIZE`), the handler loop commits them in strictly
ascending id order `0, 1, ..., N-1`, each exactly once (final commit list is
exactly `range N`), and the reorder buffer `storage` is empty when the loop
exits; `q.length + 2` outer iterations suffice. -/
theorem claim_C1_handle_db_reorder (N : ℕ) (q : List ℕ)
    (hN : N ≤ 1000) (hq : q.Perm (List.range N)) :
    handle_db (q.length + 2) N ⟨[], 0, []⟩ q = some (.ok ⟨[], N, List.range N⟩) := by
  apply handle_db_run N hN
  · refine ⟨Nat.zero_le N, rfl, List.sorted_nil, ?_, by simp⟩
    show q.Perm (List.range' 0 (N - 0))
    simpa [← List.range_eq_range'] using hq
  · exact le_refl _

/-- Witness for C1 (amended) at `N = 3` with the out-of-order delivery
`[2, 0, 1]`. -/
theorem claim_C1_handle_db_reorder_witness :
    handle_db ([2, 0, 1].length + 2) 3 ⟨[], 0, []⟩ [2, 0, 1] =
      some (.ok ⟨[], 3, List.range 3⟩) :=
  claim_C1_handle_db_reorder 3 [2, 0, 1] (by decide) (by decide)

theorem sorted_le_range' (s n : ℕ) : (List.range' s n).Sorted (· ≤ ·) :=
  (List.pairwise_lt_range' s n 1).imp le_of_lt

theorem ascend_step (k : ℕ) (hk : k < 1000) :
    handle_db (1003 - k) 1001 ⟨List.range' 1 k, 0, []⟩
      (List.range' (k + 1) (1000 - k) ++ [0]) =
    handle_db (1002 - k) 1001 ⟨List.range' 1 (k + 1), 0, []⟩
      (List.range' (k + 2) (999 - k) ++ [0]) := by
  have hfuel : 1003 - k = (1002 - k) + 1 := by omega
  rw [hfuel, handle_db]
  rw [if_pos (show (0 : ℕ) < 1001 from by omega)]
  rw [if_neg (show ¬ (MAX_RESULT_STORAGE_SIZE ≤
      (⟨List.range' 1 k, 0, []⟩ : DBState).storage.length) from by
    show ¬ (1000 ≤ (List.range' 1 k).length)
    rw [List.length_range']
    omega)]
  have hA : phaseA ⟨List.range' 1 k, 0, []⟩ = ⟨List.range' 1 k, 0, []⟩ := by
    cases k with
    | zero => rfl
    | succ m =>
      rw [phaseA]
      rw [show (⟨List.range' 1 (m + 1), 0, []⟩ : DBState).storage =
        1 :: List.range' 2 m from List.range'_succ 1 m 1]
      dsimp only
      rw [if_neg (show ¬ ((0 : ℕ) = 1) from by omega)]
  rw [hA]
  have hq : List.range' (k + 1) (1000 - k) ++ [0] =
      (k + 1) :: (List.range' (k + 2) (999 - k) ++ [0]) := by
    have h10 : 1000 - k = (999 - k) + 1 := by omega
    rw [h10, List.range'_succ]
    rfl
  rw [hq, phaseB]
  rw [if_neg (show ¬ ((0 : ℕ) = k + 1) from by omega)]
  rw [if_pos (show (0 : ℕ) < k + 1 from by omega)]
  have hsortins : ((List.range' 1 k) ++ [k + 1]).insertionSort (· ≤ ·) =
      List.range' 1 (k + 1) := by
    have hconcat : List.range' 1 k ++ [k + 1] = List.range' 1 (k + 1) := by
      have h2 := @List.range'_concat 1 1 k
      simp only [one_mul] at h2
      rw [h2, Nat.add_comm 1 k]
    rw [hconcat]
    exact (sorted_le_range' 1 (k + 1)).insertionSort_eq
  dsimp only
  rw [hsortins]

theorem ascend_run : ∀ (j k : ℕ), k + j = 1000 →
    handle_db (1003 - k) 1001 ⟨List.range' 1 k, 0, []⟩ (List.range' (k + 1) j ++ [0]) =
    handle_db 3 1001 ⟨List.range' 1 1000, 0, []⟩ [0] := by
  intro j
  induction j with
  | zero =>
    intro k hk
    have hk2 : k = 1000 := by omega
    subst hk2
    rfl
  | succ j ih =>
    intro k hk
    have hk1000 : k < 1000 := by omega
    have hstep := ascend_step k hk1000
    have h1 : 1000 - k = j + 1 := by omega
    rw [h1] at hstep
    rw [hstep]
    have h2 : 1002 - k = 1003 - (k + 1) := by omega
    have h3 : 999 - k = j := by omega
    rw [h2, h3]
    exact ih (k + 1) (by omega)

theorem handle_db_overflow_final :
    handle_db 3 1001 ⟨List.range' 1 1000, 0, []⟩ [0] =
      some (.error "assert len(storage) < MAX_RESULT_STORAGE_SIZE") := by
  rw [show (3 : ℕ) = 2 + 1 from rfl, handle_db]
  rw [if_pos (show (0 : ℕ) < 1001 from by omega)]
  rw [if_pos (show MAX_RESULT_STORAGE_SIZE ≤
      (⟨List.range' 1 1000, 0, []⟩ : DBState).storage.length from by
    show MAX_RESULT_STORAGE_SIZE ≤ (List.range' 1 1000).length
    rw [List.length_range']
    exact le_refl 1000)]

/-- Counterexample to C1 as stated (without a bound on `N`): for `N = 1001`
with delivery order `1, 2, ..., 1000, 0`, the reorder buffer reaches
`MAX_RESULT_STORAGE_SIZE = 1000` before id 0 arrives, the size assert fires,
and the handler crashes with nothing committed — the results are neither
committed in order nor does the loop exit with an empty buffer. -/
theorem claim_C1_handle_db_reorder_counterexample :
    handle_db 1003 1001 ⟨[], 0, []⟩ (List.range' 1 1000 ++ [0]) =
      some (.error "assert len(storage) < MAX_RESULT_STORAGE_SIZE") :=
  (ascend_run 1000 0 rfl).trans handle_db_overflow_final

end XQuery
